import Mathlib

/-!
Verification of the Viterbi word-segmentation engine (`viterbi_segment` from
the text notebook) against its design specification.

The Python function is embedded shallowly: strings are `List Char`, the
probability model `P` is a function `List Char → ℚ`, the two working arrays
`best` and `words` are functions `Nat → ℚ` / `Nat → List Char` updated
pointwise, the two DP loops are left folds over `List.range`, and the
backtracking `while` loop is a fuel-indexed recursion (the fuel passed by
`viterbi_segment` is shown sufficient below).
-/

namespace Viterbi

/-- Python slice `text[j:i]`. -/
def slice (text : List Char) (j i : Nat) : List Char :=
  (text.drop j).take (i - j)

/-- The two working arrays of the DP: `best[i]` and `words[i]`. -/
structure DPState where
  best : Nat → ℚ
  words : Nat → List Char

/-- Pointwise array update. -/
def upd {α : Type} (f : Nat → α) (k : Nat) (v : α) : Nat → α :=
  fun m => if m = k then v else f m

/-- Initial arrays: `words = [''] + list(text)` and `best = [1.0] + [0.0] * n`. -/
def initState (text : List Char) : DPState :=
  { best := fun i => if i = 0 then 1 else 0
    words := fun i => if i = 0 then [] else (text.drop (i - 1)).take 1 }

/-- One iteration of the inner loop body: `w = text[j:i]`;
`newbest = P[w] * best[i - len(w)]`; `if newbest >= best[i]` update both
arrays at index `i`. -/
def innerStep (text : List Char) (P : List Char → ℚ) (i : Nat)
    (st : DPState) (j : Nat) : DPState :=
  let w := slice text j i
  let newbest := P w * st.best (i - w.length)
  if st.best i ≤ newbest then
    { best := upd st.best i newbest, words := upd st.words i w }
  else st

/-- The inner loop `for j in range(0, i)`. -/
def innerLoop (text : List Char) (P : List Char → ℚ) (i : Nat)
    (st : DPState) : DPState :=
  (List.range i).foldl (innerStep text P i) st

/-- The outer loop `for i in range(n+1)` run for the first `m` values of `i`. -/
def dpUpto (text : List Char) (P : List Char → ℚ) (m : Nat) : DPState :=
  (List.range m).foldl (fun st i => innerLoop text P i st) (initState text)

/-- The full DP loop of `viterbi_segment`. -/
def dpLoop (text : List Char) (P : List Char → ℚ) : DPState :=
  dpUpto text P (text.length + 1)

/-- The backtracking `while i > 0` loop, with explicit fuel: each iteration
prepends `words[i]` and sets `i = i - len(words[i])`. -/
def backtrackAux (words : Nat → List Char) : Nat → Nat → List (List Char)
  | 0, _ => []
  | fuel + 1, i =>
    if i = 0 then []
    else backtrackAux words fuel (i - (words i).length) ++ [words i]

/-- The embedded `viterbi_segment(text, P)`: run the DP, backtrack from
`i = len(words) - 1 = n`, and return the sequence with `best[-1]`. -/
def viterbi_segment (text : List Char) (P : List Char → ℚ) :
    List (List Char) × ℚ :=
  let st := dpLoop text P
  (backtrackAux st.words (text.length + 1) text.length, st.best text.length)

/-- A segmentation of a string: a list of nonempty words whose concatenation
is the string. -/
def IsSegmentation (s : List Char) (ws : List (List Char)) : Prop :=
  (∀ w ∈ ws, w ≠ []) ∧ ws.flatten = s

/-- The set of joint probabilities of segmentations of `s` under model `P`. -/
def segProbs (P : List Char → ℚ) (s : List Char) : Set ℚ :=
  { p | ∃ ws, IsSegmentation s ws ∧ p = (ws.map P).prod }

/-- The candidate value examined by the DP at end position `i`, start `j`,
expressed with the final table: `P[text[j:i]] * best[j]`. -/
def cand (text : List Char) (P : List Char → ℚ) (i j : Nat) : ℚ :=
  P (slice text j i) * (dpLoop text P).best j

/-- Modelled from the spec: the probability lookup `P[w]` calls into the
WordProbabilityModel, whose construction code is outside this notebook cell;
per the design, lookups are total and "read-only after construction" with "no
side effects". A lookup is modelled generically as an operation on an explicit
model state returning a probability and the next model state; a read-only
lookup is one that returns the state unchanged. -/
def ReadOnlyLookup {σ : Type} (rd : σ → List Char → ℚ × σ) : Prop :=
  ∀ s w, (rd s w).2 = s

/-- The inner-loop body with the model as explicit threaded state: the lookup
`P[w]` is performed on every iteration and the model state it returns is
carried forward. -/
def innerStepSt {σ : Type} (text : List Char) (rd : σ → List Char → ℚ × σ)
    (i : Nat) (p : DPState × σ) (j : Nat) : DPState × σ :=
  let w := slice text j i
  let r := rd p.2 w
  let newbest := r.1 * p.1.best (i - w.length)
  if p.1.best i ≤ newbest then
    ({ best := upd p.1.best i newbest, words := upd p.1.words i w }, r.2)
  else (p.1, r.2)

/-- The DP loop with the model as explicit threaded state. -/
def dpLoopSt {σ : Type} (text : List Char) (rd : σ → List Char → ℚ × σ)
    (s0 : σ) : DPState × σ :=
  (List.range (text.length + 1)).foldl
    (fun p i => (List.range i).foldl (innerStepSt text rd i) p)
    (initState text, s0)

/-- The embedded `viterbi_segment` with the model as explicit threaded state,
pairing the return value with the final model state. -/
def viterbi_segment_st {σ : Type} (text : List Char)
    (rd : σ → List Char → ℚ × σ) (s0 : σ) : (List (List Char) × ℚ) × σ :=
  let p := dpLoopSt text rd s0
  ((backtrackAux p.1.words (text.length + 1) text.length,
    p.1.best text.length), p.2)

/-- A concrete model used in counterexamples and witnesses: all values lie in
`(0, 1]`, and the two segmentations of `"ab"` tie with joint probability
`1/4 = P["ab"] = P["a"] * P["b"]`. -/
def Pc : List Char → ℚ := fun w =>
  if w = ['a', 'b'] then 1 / 4
  else if w = ['a'] then 1 / 2
  else if w = ['b'] then 1 / 2
  else 1 / 2

/-- A concrete read-only lookup on a trivial model state, used as witness. -/
def rd0 : Nat → List Char → ℚ × Nat := fun s _ => (1 / 2, s)

lemma slice_length {text : List Char} {j i : Nat} (hj : j ≤ i)
    (hi : i ≤ text.length) : (slice text j i).length = i - j := by
  simp only [slice, List.length_take, List.length_drop]
  omega

lemma slice_ne_nil {text : List Char} {j i : Nat} (hj : j < i)
    (hi : i ≤ text.length) : slice text j i ≠ [] := by
  intro hnil
  have h := slice_length (Nat.le_of_lt hj) hi
  rw [hnil] at h
  simp only [List.length_nil] at h
  omega

lemma take_append_slice {text : List Char} {j i : Nat} (hj : j ≤ i) :
    text.take j ++ slice text j i = text.take i := by
  conv_rhs => rw [show i = j + (i - j) by omega, List.take_add]
  rfl

lemma upd_same {α : Type} (f : Nat → α) (k : Nat) (v : α) : upd f k v k = v := by
  simp [upd]

lemma upd_ne {α : Type} (f : Nat → α) (k : Nat) (v : α) {m : Nat} (h : m ≠ k) :
    upd f k v m = f m := by
  simp [upd, h]

lemma innerStep_best_ne {text : List Char} {P : List Char → ℚ} {i : Nat}
    {st : DPState} {j k : Nat} (h : k ≠ i) :
    (innerStep text P i st j).best k = st.best k := by
  simp only [innerStep]
  split
  · exact upd_ne _ _ _ h
  · rfl

lemma innerStep_words_ne {text : List Char} {P : List Char → ℚ} {i : Nat}
    {st : DPState} {j k : Nat} (h : k ≠ i) :
    (innerStep text P i st j).words k = st.words k := by
  simp only [innerStep]
  split
  · exact upd_ne _ _ _ h
  · rfl

lemma foldl_innerStep_best_ne (text : List Char) (P : List Char → ℚ) (i : Nat)
    (L : List Nat) :
    ∀ st : DPState, ∀ k, k ≠ i →
      ((L.foldl (innerStep text P i) st).best k = st.best k) := by
  induction L with
  | nil => intro st k _; rfl
  | cons j t ih =>
    intro st k h
    rw [List.foldl_cons, ih _ _ h, innerStep_best_ne h]

lemma foldl_innerStep_words_ne (text : List Char) (P : List Char → ℚ) (i : Nat)
    (L : List Nat) :
    ∀ st : DPState, ∀ k, k ≠ i →
      ((L.foldl (innerStep text P i) st).words k = st.words k) := by
  induction L with
  | nil => intro st k _; rfl
  | cons j t ih =>
    intro st k h
    rw [List.foldl_cons, ih _ _ h, innerStep_words_ne h]

lemma dpUpto_zero (text : List Char) (P : List Char → ℚ) :
    dpUpto text P 0 = initState text := rfl

lemma dpUpto_succ (text : List Char) (P : List Char → ℚ) (m : Nat) :
    dpUpto text P (m + 1) = innerLoop text P m (dpUpto text P m) := by
  unfold dpUpto
  rw [List.range_succ, List.foldl_append, List.foldl_cons, List.foldl_nil]

lemma dpUpto_best_of_le (text : List Char) (P : List Char → ℚ) :
    ∀ m k, m ≤ k → (dpUpto text P m).best k = (initState text).best k := by
  intro m
  induction m with
  | zero => intro k _; rfl
  | succ m ih =>
    intro k h
    rw [dpUpto_succ]
    unfold innerLoop
    rw [foldl_innerStep_best_ne _ _ _ _ _ _ (by omega)]
    exact ih k (by omega)

lemma dpUpto_words_of_le (text : List Char) (P : List Char → ℚ) :
    ∀ m k, m ≤ k → (dpUpto text P m).words k = (initState text).words k := by
  intro m
  induction m with
  | zero => intro k _; rfl
  | succ m ih =>
    intro k h
    rw [dpUpto_succ]
    unfold innerLoop
    rw [foldl_innerStep_words_ne _ _ _ _ _ _ (by omega)]
    exact ih k (by omega)

lemma dpUpto_best_stable (text : List Char) (P : List Char → ℚ) {k m : Nat}
    (hk : k < m) :
    ∀ mx, m ≤ mx → (dpUpto text P mx).best k = (dpUpto text P m).best k := by
  intro mx
  induction mx with
  | zero => intro h; omega
  | succ mx ih =>
    intro h
    by_cases hm : m = mx + 1
    · rw [hm]
    · rw [dpUpto_succ]
      unfold innerLoop
      rw [foldl_innerStep_best_ne _ _ _ _ _ _ (by omega)]
      exact ih (by omega)

lemma dpUpto_words_stable (text : List Char) (P : List Char → ℚ) {k m : Nat}
    (hk : k < m) :
    ∀ mx, m ≤ mx → (dpUpto text P mx).words k = (dpUpto text P m).words k := by
  intro mx
  induction mx with
  | zero => intro h; omega
  | succ mx ih =>
    intro h
    by_cases hm : m = mx + 1
    · rw [hm]
    · rw [dpUpto_succ]
      unfold innerLoop
      rw [foldl_innerStep_words_ne _ _ _ _ _ _ (by omega)]
      exact ih (by omega)

lemma dpLoop_best_eq_upto (text : List Char) (P : List Char → ℚ) {k : Nat}
    (hk : k ≤ text.length) :
    (dpLoop text P).best k = (dpUpto text P (k + 1)).best k :=
  dpUpto_best_stable text P (Nat.lt_succ_self k) (text.length + 1) (by omega)

lemma dpLoop_words_eq_upto (text : List Char) (P : List Char → ℚ) {k : Nat}
    (hk : k ≤ text.length) :
    (dpLoop text P).words k = (dpUpto text P (k + 1)).words k :=
  dpUpto_words_stable text P (Nat.lt_succ_self k) (text.length + 1) (by omega)

lemma le_foldl_max (f : Nat → ℚ) (L : List Nat) :
    ∀ a : ℚ, a ≤ L.foldl (fun x j => max x (f j)) a := by
  induction L with
  | nil => intro a; exact le_refl a
  | cons j t ih =>
    intro a
    rw [List.foldl_cons]
    exact le_trans (le_max_left a (f j)) (ih _)

lemma mem_le_foldl_max (f : Nat → ℚ) (L : List Nat) :
    ∀ a : ℚ, ∀ j ∈ L, f j ≤ L.foldl (fun x j => max x (f j)) a := by
  induction L with
  | nil => intro a j hj; cases hj
  | cons j0 t ih =>
    intro a j hj
    rw [List.foldl_cons]
    rcases List.mem_cons.1 hj with h | h
    · subst h
      exact le_trans (le_max_right a (f j)) (le_foldl_max f t _)
    · exact ih _ j h

lemma foldl_max_cases (f : Nat → ℚ) (L : List Nat) :
    ∀ a : ℚ, L.foldl (fun x j => max x (f j)) a = a
      ∨ ∃ j ∈ L, L.foldl (fun x j => max x (f j)) a = f j := by
  induction L with
  | nil => intro a; exact Or.inl rfl
  | cons j0 t ih =>
    intro a
    rw [List.foldl_cons]
    rcases ih (max a (f j0)) with h | ⟨j, hj, h⟩
    · rcases max_cases a (f j0) with ⟨he, _⟩ | ⟨he, _⟩
      · exact Or.inl (by rw [h, he])
      · exact Or.inr ⟨j0, List.mem_cons_self _ _, by rw [h, he]⟩
    · exact Or.inr ⟨j, List.mem_cons_of_mem _ hj, h⟩

lemma foldl_max_congr (f g : Nat → ℚ) (L : List Nat)
    (h : ∀ j ∈ L, f j = g j) :
    ∀ a : ℚ, L.foldl (fun x j => max x (f j)) a
      = L.foldl (fun x j => max x (g j)) a := by
  induction L with
  | nil => intro a; rfl
  | cons j t ih =>
    intro a
    rw [List.foldl_cons, List.foldl_cons, h j (List.mem_cons_self _ _)]
    exact ih (fun j hj => h j (List.mem_cons_of_mem _ hj)) _

/-- Characterization of the inner loop after its first `m` iterations, for a
fixed end position `i ≤ n` and entry state `st0`: the running `best[i]` is the
running maximum of the candidate values, and `words[i]` is either untouched
(no candidate ever reached `best[i]`) or records the candidate of the *last*
iteration `j` that attained the running maximum, every later candidate being
strictly below it. -/
lemma inner_char (text : List Char) (P : List Char → ℚ) (i : Nat)
    (st0 : DPState) (hi : i ≤ text.length) :
    ∀ m, m ≤ i →
      ((List.range m).foldl (innerStep text P i) st0).best i
        = (List.range m).foldl
            (fun a j => max a (P (slice text j i) * st0.best j)) (st0.best i)
      ∧ ((((List.range m).foldl (innerStep text P i) st0).words i = st0.words i
            ∧ ((List.range m).foldl (innerStep text P i) st0).best i = st0.best i)
        ∨ ∃ j, j < m
            ∧ ((List.range m).foldl (innerStep text P i) st0).words i
                = slice text j i
            ∧ P (slice text j i) * st0.best j
                = ((List.range m).foldl (innerStep text P i) st0).best i
            ∧ ∀ jx, j < jx → jx < m →
                P (slice text jx i) * st0.best jx
                  < ((List.range m).foldl (innerStep text P i) st0).best i) := by
  intro m
  induction m with
  | zero =>
    intro _
    exact ⟨rfl, Or.inl ⟨rfl, rfl⟩⟩
  | succ m ih =>
    intro hm
    have hml : m ≤ i := by omega
    have hmi : m < i := by omega
    obtain ⟨ihval, ihw⟩ := ih hml
    set G := (List.range m).foldl (innerStep text P i) st0 with hG
    have hlen : (slice text m i).length = i - m := slice_length hml hi
    have hread : G.best (i - (slice text m i).length) = st0.best m := by
      rw [hlen, show i - (i - m) = m by omega]
      exact foldl_innerStep_best_ne text P i _ st0 m (by omega)
    have hunf : (List.range (m + 1)).foldl (innerStep text P i) st0
        = innerStep text P i G m := by
      rw [List.range_succ, List.foldl_append, List.foldl_cons, List.foldl_nil]
    have hrhs : (List.range (m + 1)).foldl
          (fun a j => max a (P (slice text j i) * st0.best j)) (st0.best i)
        = max (G.best i) (P (slice text m i) * st0.best m) := by
      rw [List.range_succ, List.foldl_append, List.foldl_cons, List.foldl_nil,
        ← ihval]
    by_cases hcond : G.best i ≤ P (slice text m i) * G.best (i - (slice text m i).length)
    · have hstep : innerStep text P i G m =
          { best := upd G.best i (P (slice text m i) * G.best (i - (slice text m i).length)),
            words := upd G.words i (slice text m i) } := by
        simp only [innerStep]
        rw [if_pos hcond]
      rw [hread] at hcond hstep
      constructor
      · rw [hunf, hstep, hrhs]
        simp only [upd_same]
        exact (max_eq_right hcond).symm
      · refine Or.inr ⟨m, by omega, ?_, ?_, ?_⟩
        · rw [hunf, hstep]
          simp only [upd_same]
        · rw [hunf, hstep]
          simp only [upd_same]
        · intro jx h1 h2
          omega
    · rw [hread] at hcond
      have hstep : innerStep text P i G m = G := by
        simp only [innerStep]
        rw [hread, if_neg hcond]
      have hlt : P (slice text m i) * st0.best m < G.best i := lt_of_not_le hcond
      constructor
      · rw [hunf, hstep, hrhs, max_eq_left (le_of_lt hlt), ihval]
      · rw [hunf, hstep]
        rcases ihw with ⟨hw, hb⟩ | ⟨j, hjm, hw, hval, hlater⟩
        · exact Or.inl ⟨hw, hb⟩
        · refine Or.inr ⟨j, by omega, hw, hval, ?_⟩
          intro jx h1 h2
          by_cases hx : jx = m
          · rw [hx]; exact hlt
          · exact hlater jx h1 (by omega)

lemma initState_best_zero (text : List Char) : (initState text).best 0 = 1 := rfl

lemma initState_best_pos (text : List Char) {i : Nat} (hi : 1 ≤ i) :
    (initState text).best i = 0 := by
  simp only [initState]
  rw [if_neg (by omega)]

lemma initState_words_slice (text : List Char) {i : Nat} (hi : 1 ≤ i) :
    (initState text).words i = slice text (i - 1) i := by
  simp only [initState, slice]
  rw [if_neg (by omega), show i - (i - 1) = 1 by omega]

/-- Final-table value characterization: for `i ≤ n`, the final `best[i]` is
the running maximum, over `j < i`, of the candidates
`P[text[j:i]] * best[j]`, seeded with the initial value of `best[i]`. -/
lemma dpLoop_best_char (text : List Char) (P : List Char → ℚ) {i : Nat}
    (hi : i ≤ text.length) :
    (dpLoop text P).best i = (List.range i).foldl
      (fun a j => max a (cand text P i j)) ((initState text).best i) := by
  have h0 := dpLoop_best_eq_upto text P hi
  rw [dpUpto_succ] at h0
  unfold innerLoop at h0
  obtain ⟨hval, _⟩ := inner_char text P i (dpUpto text P i) hi i (le_refl i)
  rw [h0, hval, dpUpto_best_of_le text P i i (le_refl i)]
  refine foldl_max_congr _ _ _ ?_ _
  intro j hj
  have hji : j < i := List.mem_range.1 hj
  unfold cand dpLoop
  rw [dpUpto_best_stable text P hji (text.length + 1) (by omega)]

/-- Final-table word characterization: for `i ≤ n`, the final `words[i]` is
either untouched by the DP (and then `best[i]` kept its initial value), or it
records the candidate word of the last inner-loop iteration `j` that attained
the final `best[i]`, every later candidate being strictly smaller. -/
lemma dpLoop_words_char (text : List Char) (P : List Char → ℚ) {i : Nat}
    (hi : i ≤ text.length) :
    ((dpLoop text P).words i = (initState text).words i
        ∧ (dpLoop text P).best i = (initState text).best i)
    ∨ ∃ j, j < i ∧ (dpLoop text P).words i = slice text j i
        ∧ cand text P i j = (dpLoop text P).best i
        ∧ ∀ jx, j < jx → jx < i → cand text P i jx < (dpLoop text P).best i := by
  have h0 := dpLoop_best_eq_upto text P hi
  have h0w := dpLoop_words_eq_upto text P hi
  rw [dpUpto_succ] at h0 h0w
  unfold innerLoop at h0 h0w
  obtain ⟨_, hw⟩ := inner_char text P i (dpUpto text P i) hi i (le_refl i)
  have hcand : ∀ j, j < i → P (slice text j i) * (dpUpto text P i).best j
      = cand text P i j := by
    intro j hji
    unfold cand dpLoop
    rw [dpUpto_best_stable text P hji (text.length + 1) (by omega)]
  rcases hw with ⟨hwe, hbe⟩ | ⟨j, hji, hwe, hval, hlater⟩
  · left
    constructor
    · rw [h0w, hwe, dpUpto_words_of_le text P i i (le_refl i)]
    · rw [h0, hbe, dpUpto_best_of_le text P i i (le_refl i)]
  · right
    refine ⟨j, hji, by rw [h0w, hwe], ?_, ?_⟩
    · rw [h0, ← hval, hcand j hji]
    · intro jx h1 h2
      rw [h0, ← hcand jx h2]
      exact hlater jx h1 h2

lemma dpLoop_best_zero (text : List Char) (P : List Char → ℚ) :
    (dpLoop text P).best 0 = 1 := by
  rw [dpLoop_best_char text P (Nat.zero_le _)]
  rfl

lemma map_prod_pos {P : List Char → ℚ} (hP : ∀ w, 0 < P w)
    (ws : List (List Char)) : 0 < (ws.map P).prod := by
  refine List.prod_pos ?_
  intro x hx
  obtain ⟨w, _, rfl⟩ := List.mem_map.1 hx
  exact hP w

lemma map_prod_le_one {P : List Char → ℚ} (hP : ∀ w, 0 < P w ∧ P w ≤ 1) :
    ∀ ws : List (List Char), (ws.map P).prod ≤ 1 := by
  intro ws
  induction ws with
  | nil => simp
  | cons w t ih =>
    rw [List.map_cons, List.prod_cons]
    calc P w * (t.map P).prod ≤ 1 * 1 := by
          refine mul_le_mul (hP w).2 ih (le_of_lt (map_prod_pos (fun u => (hP u).1) t)) ?_
          exact le_of_lt one_pos
      _ = 1 := by ring

/-- Optimality of the DP table: for every `i ≤ n`, the final `best[i]` is the
greatest joint probability of a segmentation of the first `i` characters. -/
lemma best_isGreatest (text : List Char) (P : List Char → ℚ)
    (hP : ∀ w, 0 < P w) :
    ∀ i, i ≤ text.length →
      IsGreatest (segProbs P (text.take i)) ((dpLoop text P).best i) := by
  intro i
  induction i using Nat.strong_induction_on with
  | _ i ih =>
    intro hi
    by_cases hz : i = 0
    · subst hz
      rw [dpLoop_best_zero]
      constructor
      · exact ⟨[], ⟨by simp, rfl⟩, rfl⟩
      · rintro p ⟨ws, ⟨hne, hflat⟩, rfl⟩
        have hwnil : ws = [] := by
          cases ws with
          | nil => rfl
          | cons w t =>
            exfalso
            refine hne w (List.mem_cons_self _ _) ?_
            have hsimp : w = [] ∧ ∀ l ∈ t, l = [] := by simpa using hflat
            exact hsimp.1
        rw [hwnil]
        simp
    · have hi1 : 1 ≤ i := by omega
      have hval := dpLoop_best_char text P hi
      rw [initState_best_pos text hi1] at hval
      have hlen_take : (text.take i).length = i := by
        rw [List.length_take]
        omega
      constructor
      · -- membership: some segmentation attains best[i]
        rcases foldl_max_cases (cand text P i) (List.range i) 0 with hc | ⟨j, hj, hc⟩
        · exfalso
          have h0mem : (0 : Nat) ∈ List.range i := List.mem_range.2 (by omega)
          have hle := mem_le_foldl_max (cand text P i) (List.range i) 0 0 h0mem
          rw [hc] at hle
          have : 0 < cand text P i 0 := by
            unfold cand
            rw [dpLoop_best_zero]
            simpa using hP (slice text 0 i)
          linarith
        · have hji : j < i := List.mem_range.1 hj
          obtain ⟨ws, ⟨hne, hflat⟩, hprod⟩ := (ih j hji (by omega)).1
          refine ⟨ws ++ [slice text j i], ⟨?_, ?_⟩, ?_⟩
          · intro w hw
            rcases List.mem_append.1 hw with h | h
            · exact hne w h
            · rw [List.mem_singleton.1 h]
              exact slice_ne_nil hji hi
          · rw [List.flatten_append, hflat]
            simp only [List.flatten_cons, List.flatten_nil, List.append_nil]
            exact take_append_slice (by omega)
          · rw [List.map_append, List.prod_append, ← hprod]
            simp only [List.map_cons, List.map_nil, List.prod_cons,
              List.prod_nil, mul_one]
            rw [hval, hc]
            unfold cand
            ring
      · -- upper bound: every segmentation's probability is at most best[i]
        rintro p ⟨ws, ⟨hne, hflat⟩, rfl⟩
        rcases List.eq_nil_or_concat ws with hnil | ⟨L, w, hcat⟩
        · exfalso
          rw [hnil] at hflat
          simp only [List.flatten_nil] at hflat
          rw [← hflat] at hlen_take
          simp at hlen_take
          omega
        · rw [List.concat_eq_append] at hcat
          subst hcat
          have hwmem : w ∈ L ++ [w] := List.mem_append.2 (Or.inr (List.mem_singleton.2 rfl))
          have hwne : w ≠ [] := hne w hwmem
          rw [List.flatten_append] at hflat
          simp only [List.flatten_cons, List.flatten_nil, List.append_nil] at hflat
          set k := L.flatten.length with hk
          have hki : k + w.length = i := by
            have := congrArg List.length hflat
            simp only [List.length_append] at this
            rw [hlen_take] at this
            omega
          have hwlen : 1 ≤ w.length := by
            cases w with
            | nil => exact absurd rfl hwne
            | cons c t => simp
          have hkil : k < i := by omega
          have hLflat : L.flatten = text.take k := by
            have h1 : (L.flatten ++ w).take k = L.flatten := by
              rw [hk, List.take_left]
            rw [hflat] at h1
            rw [← h1, List.take_take]
            congr 1
            omega
          have hwslice : w = slice text k i := by
            have h1 : (L.flatten ++ w).drop k = w := by
              rw [hk, List.drop_left]
            rw [hflat] at h1
            rw [← h1, List.drop_take]
            unfold slice
            rfl
          have hLle : (L.map P).prod ≤ (dpLoop text P).best k :=
            (ih k hkil (by omega)).2 ⟨L, ⟨fun u hu => hne u (List.mem_append.2 (Or.inl hu)), hLflat⟩, rfl⟩
          have hcle : cand text P i k ≤ (dpLoop text P).best i := by
            rw [hval]
            exact mem_le_foldl_max (cand text P i) (List.range i) 0 k
              (List.mem_range.2 hkil)
          calc ((L ++ [w]).map P).prod
              = (L.map P).prod * P w := by
                rw [List.map_append, List.prod_append]
                simp
            _ ≤ (dpLoop text P).best k * P w :=
                mul_le_mul_of_nonneg_right hLle (le_of_lt (hP w))
            _ = cand text P i k := by
                unfold cand
                rw [hwslice]
                ring
            _ ≤ (dpLoop text P).best i := hcle

/-- The positivity of the final `best[j]` for positive models. -/
lemma dpLoop_best_pos (text : List Char) (P : List Char → ℚ)
    (hP : ∀ w, 0 < P w) {j : Nat} (hj : j ≤ text.length) :
    0 < (dpLoop text P).best j := by
  obtain ⟨ws, _, hprod⟩ := (best_isGreatest text P hP j hj).1
  rw [hprod]
  exact map_prod_pos hP ws

/-- Structural invariant of the `words` table: independent of the model, the
final `words[i]` for `1 ≤ i ≤ n` is a nonempty slice `text[j:i]`. -/
lemma words_inv (text : List Char) (P : List Char → ℚ) :
    ∀ i, 1 ≤ i → i ≤ text.length →
      ∃ j, j < i ∧ (dpLoop text P).words i = slice text j i := by
  intro i h1 hi
  rcases dpLoop_words_char text P hi with ⟨hw, _⟩ | ⟨j, hji, hw, _, _⟩
  · exact ⟨i - 1, by omega, by rw [hw, initState_words_slice text h1]⟩
  · exact ⟨j, hji, hw⟩

/-- Backtracking reconstructs the prefix: under the `words` invariant, the
concatenation of the words collected from position `i` is `text.take i`. -/
lemma backtrack_flatten (text : List Char) (W : Nat → List Char)
    (hinv : ∀ k, 1 ≤ k → k ≤ text.length →
      ∃ j, j < k ∧ W k = slice text j k) :
    ∀ fuel i, i ≤ text.length → i ≤ fuel →
      (backtrackAux W fuel i).flatten = text.take i := by
  intro fuel
  induction fuel with
  | zero =>
    intro i hi hf
    have : i = 0 := by omega
    subst this
    rfl
  | succ fuel ih =>
    intro i hi hf
    by_cases hz : i = 0
    · subst hz
      rfl
    · obtain ⟨j, hji, hw⟩ := hinv i (by omega) hi
      have hlen : (W i).length = i - j := by
        rw [hw]
        exact slice_length (by omega) hi
      have hred : i - (W i).length = j := by omega
      show (if i = 0 then []
        else backtrackAux W fuel (i - (W i).length) ++ [W i]).flatten = _
      rw [if_neg hz]
      rw [hred, List.flatten_append]
      simp only [List.flatten_cons, List.flatten_nil, List.append_nil]
      rw [ih j (by omega) (by omega), hw]
      exact take_append_slice (by omega)

/-- Backtracking is fuel-insensitive once the fuel covers the start position:
with the `words` invariant, the loop completes within `i` iterations. -/
lemma backtrack_fuel_indep (text : List Char) (W : Nat → List Char)
    (hinv : ∀ k, 1 ≤ k → k ≤ text.length →
      ∃ j, j < k ∧ W k = slice text j k) :
    ∀ f1 f2 i, i ≤ text.length → i ≤ f1 → i ≤ f2 →
      backtrackAux W f1 i = backtrackAux W f2 i := by
  intro f1
  induction f1 with
  | zero =>
    intro f2 i hi h1 h2
    have : i = 0 := by omega
    subst this
    cases f2 with
    | zero => rfl
    | succ f2 => rfl
  | succ f1 ih =>
    intro f2 i hi h1 h2
    by_cases hz : i = 0
    · subst hz
      cases f2 with
      | zero => rfl
      | succ f2 => rfl
    · cases f2 with
      | zero => omega
      | succ f2 =>
        obtain ⟨j, hji, hw⟩ := hinv i (by omega) hi
        have hlen : (W i).length = i - j := by
          rw [hw]
          exact slice_length (by omega) hi
        have hred : i - (W i).length = j := by omega
        show (if i = 0 then []
            else backtrackAux W f1 (i - (W i).length) ++ [W i])
          = (if i = 0 then []
            else backtrackAux W f2 (i - (W i).length) ++ [W i])
        rw [if_neg hz, hred, ih f2 j (by omega) (by omega) (by omega), if_neg hz]

lemma foldlSt_eq {σ : Type} (text : List Char) (rd : σ → List Char → ℚ × σ)
    (i : Nat) (hro : ReadOnlyLookup rd) (s : σ) (L : List Nat) :
    ∀ st : DPState, L.foldl (innerStepSt text rd i) (st, s)
      = (L.foldl (innerStep text (fun w => (rd s w).1) i) st, s) := by
  induction L with
  | nil => intro st; rfl
  | cons j t ih =>
    intro st
    rw [List.foldl_cons, List.foldl_cons]
    have hst : innerStepSt text rd i (st, s) j
        = (innerStep text (fun w => (rd s w).1) i st j, s) := by
      simp only [innerStepSt, innerStep, hro s (slice text j i)]
      split <;> rfl
    rw [hst]
    exact ih _

lemma outer_foldlSt_eq {σ : Type} (text : List Char)
    (rd : σ → List Char → ℚ × σ) (hro : ReadOnlyLookup rd) (s0 : σ)
    (L : List Nat) :
    ∀ st : DPState,
      L.foldl (fun p i => (List.range i).foldl (innerStepSt text rd i) p) (st, s0)
        = (L.foldl (fun st i => innerLoop text (fun w => (rd s0 w).1) i st) st, s0) := by
  induction L with
  | nil => intro st; rfl
  | cons i t ih =>
    intro st
    rw [List.foldl_cons, List.foldl_cons, foldlSt_eq text rd i hro s0 _ _]
    exact ih _

lemma dpLoopSt_eq {σ : Type} (text : List Char) (rd : σ → List Char → ℚ × σ)
    (hro : ReadOnlyLookup rd) (s0 : σ) :
    dpLoopSt text rd s0 = (dpLoop text (fun w => (rd s0 w).1), s0) := by
  unfold dpLoopSt dpLoop dpUpto
  exact outer_foldlSt_eq text rd hro s0 _ _

lemma foldl_max_zero (f : Nat → ℚ) (L : List Nat) (hf : ∀ j ∈ L, f j = 0) :
    L.foldl (fun a j => max a (f j)) 0 = 0 := by
  rcases foldl_max_cases f L 0 with h | ⟨j, hj, h⟩
  · exact h
  · rw [h]
    exact hf j hj

/-- With the all-zero model, every candidate is `0`, so `best[i] = 0` for
`i ≥ 1` and every inner iteration fires the non-strict update: `words[i]` ends
as the last candidate, the single character `text[i-1:i]`. -/
lemma zero_model_tables (text : List Char) :
    ∀ i, 1 ≤ i → i ≤ text.length →
      (dpLoop text (fun _ => (0 : ℚ))).best i = 0
      ∧ (dpLoop text (fun _ => (0 : ℚ))).words i = slice text (i - 1) i := by
  intro i h1 hi
  have hcand : ∀ j, cand text (fun _ => (0 : ℚ)) i j = 0 := by
    intro j
    unfold cand
    ring
  have hbest : (dpLoop text (fun _ => (0 : ℚ))).best i = 0 := by
    rw [dpLoop_best_char text _ hi, initState_best_pos text h1]
    exact foldl_max_zero _ _ (fun j _ => hcand j)
  refine ⟨hbest, ?_⟩
  rcases dpLoop_words_char text (fun _ => (0 : ℚ)) hi with ⟨hw, _⟩ | ⟨j, hji, hw, _, hlater⟩
  · rw [hw, initState_words_slice text h1]
  · have hj1 : j = i - 1 := by
      by_contra hne
      have hx : j < i - 1 := by omega
      have := hlater (i - 1) (by omega) (by omega)
      rw [hcand, hbest] at this
      exact absurd this (lt_irrefl 0)
    rw [hw, hj1]

lemma backtrack_per_char (text : List Char) (W : Nat → List Char)
    (hW : ∀ k, 1 ≤ k → k ≤ text.length → W k = slice text (k - 1) k) :
    ∀ fuel i, i ≤ text.length → i ≤ fuel →
      backtrackAux W fuel i = (text.take i).map (fun c => [c]) := by
  intro fuel
  induction fuel with
  | zero =>
    intro i hi hf
    have : i = 0 := by omega
    subst this
    rfl
  | succ fuel ih =>
    intro i hi hf
    by_cases hz : i = 0
    · subst hz
      rfl
    · have h1 : 1 ≤ i := by omega
      have hw := hW i h1 hi
      have hlen : (W i).length = 1 := by
        rw [hw, slice_length (by omega) hi]
        omega
      obtain ⟨c, hc⟩ := List.length_eq_one.1 hlen
      have htake : text.take i = text.take (i - 1) ++ [c] := by
        rw [← take_append_slice (show i - 1 ≤ i by omega), ← hw, hc]
      show (if i = 0 then []
        else backtrackAux W fuel (i - (W i).length) ++ [W i]) = _
      rw [if_neg hz, hlen, hc,
        ih (i - 1) (by omega) (by omega), htake, List.map_append]
      rfl

/-- C1: for every string and every model assigning each token a probability in
`(0, 1]`, after the DP loop `best[i]` is the greatest joint probability over
all segmentations of the first `i` characters (with `best[0] = 1` for the
empty prefix), and the probability returned by `viterbi_segment` is the
greatest joint probability of any segmentation of the whole text. -/
theorem viterbi_best_optimal (text : List Char) (P : List Char → ℚ)
    (hP : ∀ w, 0 < P w ∧ P w ≤ 1) :
    (dpLoop text P).best 0 = 1
    ∧ (∀ i, i ≤ text.length →
        IsGreatest (segProbs P (text.take i)) ((dpLoop text P).best i))
    ∧ IsGreatest (segProbs P text) ((viterbi_segment text P).2) := by
  have h := best_isGreatest text P (fun w => (hP w).1)
  refine ⟨dpLoop_best_zero text P, h, ?_⟩
  have h2 := h text.length (le_refl _)
  rw [List.take_length] at h2
  exact h2

/-- C1 witness at the concrete model `Pc` and text `"ab"`. -/
theorem viterbi_best_optimal_witness :
    IsGreatest (segProbs Pc ['a', 'b']) ((viterbi_segment ['a', 'b'] Pc).2) :=
  (viterbi_best_optimal ['a', 'b'] Pc
    (by intro w; simp only [Pc]; split_ifs <;> norm_num)).2.2

/-- C2: for every string and every (total) model, concatenating the word
sequence returned by `viterbi_segment` in order reproduces the input exactly,
character for character. -/
theorem viterbi_reconstructs (text : List Char) (P : List Char → ℚ) :
    ((viterbi_segment text P).1).flatten = text := by
  have h := backtrack_flatten text (dpLoop text P).words
    (fun k h1 h2 => words_inv text P k h1 h2)
    (text.length + 1) text.length (le_refl _) (by omega)
  show (backtrackAux (dpLoop text P).words
    (text.length + 1) text.length).flatten = text
  rw [h, List.take_length]

/-- C3 counterexample: under `Pc`, the segmentations `["ab"]` and
`["a", "b"]` of `"ab"` tie with joint probability `1/4`, yet the engine
returns `["a", "b"]`, whose final word `"b"` is the shorter one — not the
segmentation `["ab"]` using the longer final word, as the claim states. -/
theorem tie_break_longest_cex :
    IsSegmentation ['a', 'b'] [['a', 'b']]
    ∧ IsSegmentation ['a', 'b'] [['a'], ['b']]
    ∧ ([['a', 'b']].map Pc).prod = ([['a'], ['b']].map Pc).prod
    ∧ viterbi_segment ['a', 'b'] Pc = ([['a'], ['b']], 1 / 4)
    ∧ (viterbi_segment ['a', 'b'] Pc).1 ≠ [['a', 'b']] := by
  have hr0 : List.range 0 = [] := rfl
  have hr1 : List.range 1 = [0] := rfl
  have hr2 : List.range 2 = [0, 1] := rfl
  have hr3 : List.range 3 = [0, 1, 2] := rfl
  have hrun : viterbi_segment ['a', 'b'] Pc = ([['a'], ['b']], 1 / 4) := by
    norm_num [viterbi_segment, dpLoop, dpUpto, innerLoop, innerStep, initState,
      upd, slice, backtrackAux, Pc, hr0, hr1, hr2, hr3,
      List.foldl_cons, List.foldl_nil]
  refine ⟨⟨by decide, rfl⟩, ⟨by decide, rfl⟩, by norm_num [Pc], hrun, ?_⟩
  rw [hrun]
  decide

/-- C3 amended: the non-strict comparison makes the last candidate evaluated
win ties, and since `j` increases within the inner loop, `w = text[j:i]`
shrinks, so this retains the *shortest* final word among probability-tied
options: whenever `j2` attains the maximal candidate value at end position
`i`, the recorded final word starts at some `js ≥ j2`, its length is at most
`i - j2`, and it is strictly shorter than the final word of any tied earlier
candidate `j1 < j2`. -/
theorem tie_break_shortest_final_word (text : List Char) (P : List Char → ℚ)
    (hP : ∀ w, 0 < P w) {i j2 : Nat} (h1 : 1 ≤ i) (hi : i ≤ text.length)
    (hj2 : j2 < i) (hmax : ∀ j, j < i → cand text P i j ≤ cand text P i j2) :
    ∃ js, j2 ≤ js ∧ js < i ∧ (dpLoop text P).words i = slice text js i
      ∧ ((dpLoop text P).words i).length ≤ i - j2
      ∧ ∀ j1, j1 < j2 → ((dpLoop text P).words i).length < i - j1 := by
  have hval := dpLoop_best_char text P hi
  rw [initState_best_pos text h1] at hval
  have hbpos : 0 < (dpLoop text P).best i := by
    have hle := mem_le_foldl_max (cand text P i) (List.range i) 0 0
      (List.mem_range.2 (by omega))
    have hpos : 0 < cand text P i 0 := by
      unfold cand
      rw [dpLoop_best_zero]
      simpa using hP (slice text 0 i)
    rw [hval]
    linarith
  rcases dpLoop_words_char text P hi with ⟨_, hbe⟩ | ⟨js, hjs, hw, hvale, hlater⟩
  · rw [initState_best_pos text h1] at hbe
    rw [hbe] at hbpos
    exact absurd hbpos (lt_irrefl 0)
  · have hj2le : j2 ≤ js := by
      by_contra hlt
      push_neg at hlt
      have hc2 := hlater j2 hlt hj2
      have hm := hmax js hjs
      rw [hvale] at hm
      linarith
    have hlen : ((dpLoop text P).words i).length = i - js := by
      rw [hw]
      exact slice_length (by omega) hi
    exact ⟨js, hj2le, hjs, hw, by omega, fun j1 hj1 => by omega⟩

/-- C3 amended witness: at `"ab"` under `Pc`, position `i = 2`, the tied
candidate `j2 = 1` is maximal, so the recorded final word has length `1`. -/
theorem tie_break_shortest_final_word_witness :
    ∃ js, 1 ≤ js ∧ js < 2
      ∧ (dpLoop ['a', 'b'] Pc).words 2 = slice ['a', 'b'] js 2
      ∧ ((dpLoop ['a', 'b'] Pc).words 2).length ≤ 2 - 1
      ∧ ∀ j1, j1 < 1 → ((dpLoop ['a', 'b'] Pc).words 2).length < 2 - j1 := by
  refine tie_break_shortest_final_word ['a', 'b'] Pc
    (by intro w; simp only [Pc]; split_ifs <;> norm_num)
    (by omega) (by decide) (by omega) ?_
  have hr0 : List.range 0 = [] := rfl
  have hr1 : List.range 1 = [0] := rfl
  have hr2 : List.range 2 = [0, 1] := rfl
  have hr3 : List.range 3 = [0, 1, 2] := rfl
  intro j hj
  interval_cases j <;>
    norm_num [cand, dpLoop, dpUpto, innerLoop, innerStep, initState,
      upd, slice, Pc, hr0, hr1, hr2, hr3, List.foldl_cons, List.foldl_nil]

/-- C4 counterexample: for the text `"ab"`, the initial `words[1]` is the
single character `['a']`, not the empty sentinel the claim states. -/
theorem init_words_not_sentinel :
    (initState ['a', 'b']).words 1 = ['a']
    ∧ (initState ['a', 'b']).words 1 ≠ [] := by
  constructor <;> decide

/-- C4 amended: at the start of the DP, `best[0] = 1.0`, all other `best[i]`
are `0.0`, `words[0]` is the empty sentinel, and `words[i]` for `i > 0` is
initialized to the single character `text[i-1]` (from `[''] + list(text)`),
not to an empty sentinel. -/
theorem init_state_layout (text : List Char) :
    (initState text).best 0 = 1
    ∧ (∀ i, 1 ≤ i → (initState text).best i = 0)
    ∧ (initState text).words 0 = []
    ∧ (∀ i, 1 ≤ i → ∀ h : i - 1 < text.length,
        (initState text).words i = [text.get ⟨i - 1, h⟩]) := by
  refine ⟨rfl, fun i hi => initState_best_pos text hi, rfl, ?_⟩
  intro i hi h
  simp only [initState]
  rw [if_neg (by omega), List.drop_eq_getElem_cons h]
  simp only [List.take_succ_cons, List.take_zero, List.get_eq_getElem]

/-- C4 amended witness at `"ab"`, position `1`. -/
theorem init_state_layout_witness :
    (initState ['a', 'b']).best 1 = 0
    ∧ (initState ['a', 'b']).words 1
        = [(['a', 'b'] : List Char).get ⟨0, by decide⟩] :=
  ⟨(init_state_layout ['a', 'b']).2.1 1 (by decide),
   (init_state_layout ['a', 'b']).2.2.2 1 (by decide) (by decide)⟩

/-- C5: for every nonempty string and every model with values in `(0, 1]`,
the returned probability satisfies `0 < p ≤ 1`; for the empty string it is
exactly `1`. -/
theorem viterbi_prob_bounds (text : List Char) (P : List Char → ℚ)
    (hP : ∀ w, 0 < P w ∧ P w ≤ 1) :
    (text ≠ [] →
      0 < (viterbi_segment text P).2 ∧ (viterbi_segment text P).2 ≤ 1)
    ∧ (text = [] → (viterbi_segment text P).2 = 1) := by
  constructor
  · intro _
    constructor
    · show 0 < (dpLoop text P).best text.length
      exact dpLoop_best_pos text P (fun w => (hP w).1) (le_refl _)
    · show (dpLoop text P).best text.length ≤ 1
      obtain ⟨ws, _, hprod⟩ :=
        (best_isGreatest text P (fun w => (hP w).1) text.length (le_refl _)).1
      rw [hprod]
      exact map_prod_le_one hP ws
  · intro h
    subst h
    rfl

/-- C5 witness at the concrete model `Pc` and nonempty text `"ab"`. -/
theorem viterbi_prob_bounds_witness :
    0 < (viterbi_segment ['a', 'b'] Pc).2
    ∧ (viterbi_segment ['a', 'b'] Pc).2 ≤ 1 :=
  (viterbi_prob_bounds ['a', 'b'] Pc
    (by intro w; simp only [Pc]; split_ifs <;> norm_num)).1 (by decide)

/-- C6: on the empty string, `viterbi_segment` returns the empty word
sequence and probability exactly `1`, for every model; the empty input is a
valid, non-error case. -/
theorem viterbi_empty_input (P : List Char → ℚ) :
    viterbi_segment [] P = ([], 1) := rfl

/-- C7: `viterbi_segment` is deterministic — two calls on equal texts and
pointwise-equal (pure) models return identical word sequences and
probability values. -/
theorem viterbi_deterministic (text1 text2 : List Char)
    (P1 P2 : List Char → ℚ) (ht : text1 = text2) (hp : ∀ w, P1 w = P2 w) :
    viterbi_segment text1 P1 = viterbi_segment text2 P2 := by
  subst ht
  have h : P1 = P2 := funext hp
  rw [h]

/-- C7 witness at the concrete model `Pc` and text `"a"`. -/
theorem viterbi_deterministic_witness :
    viterbi_segment ['a'] Pc = viterbi_segment ['a'] Pc :=
  viterbi_deterministic ['a'] ['a'] Pc Pc rfl (fun _ => rfl)

/-- C8: with the model threaded as explicit state and its lookup read-only
(as the design requires of `WordProbabilityModel`), `viterbi_segment` returns
the model state unchanged, and its value is exactly that of the pure
function of the looked-up probabilities — the call has no observable effect
beyond its return value. -/
theorem viterbi_no_model_mutation {σ : Type} (text : List Char)
    (rd : σ → List Char → ℚ × σ) (s : σ) (hro : ReadOnlyLookup rd) :
    (viterbi_segment_st text rd s).2 = s
    ∧ (viterbi_segment_st text rd s).1
        = viterbi_segment text (fun w => (rd s w).1) := by
  unfold viterbi_segment_st viterbi_segment
  rw [dpLoopSt_eq text rd hro s]
  exact ⟨rfl, rfl⟩

/-- C8 witness at the concrete read-only lookup `rd0` and state `7`. -/
theorem viterbi_no_model_mutation_witness :
    (viterbi_segment_st ['a'] rd0 7).2 = 7
    ∧ (viterbi_segment_st ['a'] rd0 7).1
        = viterbi_segment ['a'] (fun w => (rd0 7 w).1) :=
  viterbi_no_model_mutation ['a'] rd0 7 (fun _ _ => rfl)

/-- C9: after the DP loop, `words[i]` for `1 ≤ i ≤ n` is a nonempty slice
`text[j:i]` with `j < i` of length exactly `i - j ≥ 1`, so backtracking
strictly decreases `i` to exactly `j` each iteration; consequently the
backtracking loop terminates (its result is already fixed by any fuel that
covers the start position `n`). -/
theorem words_suffix_invariant_backtrack_terminates (text : List Char)
    (P : List Char → ℚ) :
    (∀ i, 1 ≤ i → i ≤ text.length →
      ∃ j, j < i ∧ (dpLoop text P).words i = slice text j i
        ∧ (dpLoop text P).words i ≠ []
        ∧ ((dpLoop text P).words i).length = i - j
        ∧ 1 ≤ ((dpLoop text P).words i).length)
    ∧ (∀ f1 f2, text.length ≤ f1 → text.length ≤ f2 →
        backtrackAux (dpLoop text P).words f1 text.length
          = backtrackAux (dpLoop text P).words f2 text.length) := by
  constructor
  · intro i h1 hi
    obtain ⟨j, hj, hw⟩ := words_inv text P i h1 hi
    have hlen : ((dpLoop text P).words i).length = i - j := by
      rw [hw]
      exact slice_length (by omega) hi
    refine ⟨j, hj, hw, ?_, hlen, by omega⟩
    rw [hw]
    exact slice_ne_nil hj hi
  · intro f1 f2 h1 h2
    exact backtrack_fuel_indep text (dpLoop text P).words
      (fun k hk1 hk2 => words_inv text P k hk1 hk2)
      f1 f2 text.length (le_refl _) h1 h2

/-- C9 witness at the concrete model `Pc`, text `"ab"`, position `2`. -/
theorem words_suffix_invariant_backtrack_terminates_witness :
    ∃ j, j < 2 ∧ (dpLoop ['a', 'b'] Pc).words 2 = slice ['a', 'b'] j 2
      ∧ (dpLoop ['a', 'b'] Pc).words 2 ≠ []
      ∧ ((dpLoop ['a', 'b'] Pc).words 2).length = 2 - j
      ∧ 1 ≤ ((dpLoop ['a', 'b'] Pc).words 2).length :=
  (words_suffix_invariant_backtrack_terminates ['a', 'b'] Pc).1 2
    (by decide) (by decide)

/-- C10: because `words` is pre-initialized to the individual characters of
the text (not an empty sentinel), backtracking never reads an empty word at a
position `i > 0` for any model whatsoever; and under the all-zero model,
`viterbi_segment` still returns the per-character segmentation of the text
with probability `0` rather than failing. -/
theorem words_never_empty_zero_model (text : List Char) :
    (∀ P : List Char → ℚ, ∀ i, 1 ≤ i → i ≤ text.length →
        (dpLoop text P).words i ≠ [])
    ∧ (text ≠ [] →
        viterbi_segment text (fun _ => (0 : ℚ))
          = (text.map (fun c => [c]), 0)) := by
  constructor
  · intro P i h1 hi
    obtain ⟨j, hj, hw⟩ := words_inv text P i h1 hi
    rw [hw]
    exact slice_ne_nil hj hi
  · intro hne
    have hn1 : 1 ≤ text.length := by
      cases text with
      | nil => exact absurd rfl hne
      | cons c t => simp
    have hbt := backtrack_per_char text (dpLoop text (fun _ => (0 : ℚ))).words
      (fun k h1 h2 => (zero_model_tables text k h1 h2).2)
      (text.length + 1) text.length (le_refl _) (by omega)
    have hbest := (zero_model_tables text text.length hn1 (le_refl _)).1
    show (backtrackAux (dpLoop text (fun _ => (0 : ℚ))).words
        (text.length + 1) text.length,
      (dpLoop text (fun _ => (0 : ℚ))).best text.length) = _
    rw [hbt, hbest, List.take_length]

/-- C10 witness: on `"ab"` the all-zero model yields the per-character
segmentation with probability `0`, and `words[1]` is nonempty. -/
theorem words_never_empty_zero_model_witness :
    viterbi_segment ['a', 'b'] (fun _ => (0 : ℚ)) = ([['a'], ['b']], 0)
    ∧ (dpLoop ['a', 'b'] (fun _ => (0 : ℚ))).words 1 ≠ [] :=
  ⟨(words_never_empty_zero_model ['a', 'b']).2 (by decide),
   (words_never_empty_zero_model ['a', 'b']).1 (fun _ => 0) 1
     (by decide) (by decide)⟩

end Viterbi
